import Mathlib

/-
Verification of the f1-race-replay telemetry pipeline.

Shallow embedding of src/f1_data.py (get_race_telemetry and its helpers)
and src/leaderboard_verifier.py.  Times and distances are modelled as
exact rationals; numpy arrays become lists; Python dicts become
association lists or functions into Option.
-/

namespace F1

/-- Playback rate, from FPS = 25 in f1_data.py. -/
def FPS : ℚ := 25

/-- Tick step, from DT = 1 / FPS in f1_data.py. -/
def DT : ℚ := 1 / FPS

/-! ## Per-driver lap normalizer (f1_data.py lines 116-158)

One lap of telemetry: the lap number (a float broadcast over the lap by
np.full_like) and the per-sample pairs (SessionTime in seconds, Distance).
Channels not referenced by any claim (x, y, RelativeDistance, Speed, nGear,
DRS, tyre compound) are carried by the source identically to dist and are
omitted here. -/
structure LapTel where
  lapNumber : ℚ
  samples : List (ℚ × ℚ)
deriving DecidableEq

/-- One merged sample of a driver trace: time, race-cumulative distance
and the lap-number channel. -/
structure Sample where
  t : ℚ
  dist : ℚ
  lap : ℚ
deriving DecidableEq

/-- Minimum of the Distance column of a nonempty lap, as d_lap.min(). -/
def distMin (p : ℚ × ℚ) (ps : List (ℚ × ℚ)) : ℚ :=
  ps.foldl (fun m q => min m q.2) p.2

/-- Maximum of the Distance column of a nonempty lap, as d_lap.max(). -/
def distMax (p : ℚ × ℚ) (ps : List (ℚ × ℚ)) : ℚ :=
  ps.foldl (fun m q => max m q.2) p.2

/-- The per-lap loop of f1_data.py lines 119-155: empty laps are skipped;
otherwise the in-lap distance is shifted so its minimum is 0, the race
distance of a sample is the running total plus the shifted distance, and
the running total grows by the lap length (the maximum shifted distance)
after the lap. -/
def normalizeLaps : List LapTel → ℚ → List Sample
  | [], _ => []
  | lap :: rest, total =>
    match lap.samples with
    | [] => normalizeLaps rest total
    | p :: ps =>
      let dmin := distMin p ps
      let dmax := distMax p ps
      ((p :: ps).map fun s => ⟨s.1, total + (s.2 - dmin), lap.lapNumber⟩)
        ++ normalizeLaps rest (total + (dmax - dmin))

/-- Time order on samples, used for the global re-sort of a driver trace. -/
def timeLE (a b : Sample) : Prop := a.t ≤ b.t

instance : DecidableRel timeLE := fun a b => inferInstanceAs (Decidable (a.t ≤ b.t))

instance : IsTotal Sample timeLE := ⟨fun a b => le_total a.t b.t⟩

instance : IsTrans Sample timeLE := ⟨fun _ _ _ h h2 => le_trans h h2⟩

/-- Stable sort of a trace by time, modelling np.argsort over t_all
(f1_data.py line 171) followed by reindexing of every channel. -/
def sortByTime (l : List Sample) : List Sample := l.insertionSort timeLE

/-- A full driver trace: all laps normalized, concatenated and re-sorted
by time (f1_data.py lines 116-181). -/
def normalizeDriver (laps : List LapTel) : List Sample :=
  sortByTime (normalizeLaps laps 0)

/-! ## Timeline builder (f1_data.py lines 91-92, 196-202) -/

/-- Exact model of np.arange(start, stop, step) for step > 0: the values
start + k * step for k below the ceiling of (stop - start) / step. -/
def arange (start stop step : ℚ) : List ℚ :=
  (List.range (⌈(stop - start) / step⌉.toNat)).map fun k : ℕ => start + (k : ℚ) * step

/-- Timeline of f1_data.py line 202: np.arange(gmin, gmax, DT) - gmin. -/
def mkTimeline (gmin gmax : ℚ) : List ℚ :=
  (arange gmin gmax DT).map fun t => t - gmin

/-- One step of the global min/max accumulation (f1_data.py lines 157,
196-199): a driver with no samples was already skipped by the continue at
line 158, so contributes nothing. -/
def updateBounds (acc : Option (ℚ × ℚ)) (trace : List Sample) : Option (ℚ × ℚ) :=
  match trace with
  | [] => acc
  | p :: ps =>
    let tmin := ps.foldl (fun m s => min m s.t) p.t
    let tmax := ps.foldl (fun m s => max m s.t) p.t
    match acc with
    | none => some (tmin, tmax)
    | some (gmin, gmax) => some (min gmin tmin, max gmax tmax)

/-- Global time bounds over all driver traces, starting from None
(f1_data.py lines 91-92, 196-199). -/
def globalBounds (traces : List (List Sample)) : Option (ℚ × ℚ) :=
  traces.foldl updateBounds none

/-! ## Resampler (f1_data.py lines 204-252) -/

/-- Exact model of np.interp over knots (x, y): flat extrapolation outside
the observed range, linear interpolation between consecutive knots. -/
def interpPoints : List (ℚ × ℚ) → ℚ → ℚ
  | [], _ => 0
  | [(_, y0)], _ => y0
  | (x0, y0) :: (x1, y1) :: rest, x =>
    if x ≤ x0 then y0
    else if x ≤ x1 then y0 + (y1 - y0) * ((x - x0) / (x1 - x0))
    else interpPoints ((x1, y1) :: rest) x

/-- Channels of one driver resampled onto the shared timeline: only the
dist and lap channels, which are the ones any claim reads. -/
structure RTrace where
  dist : List ℚ
  lap : List ℚ
deriving DecidableEq

/-- The resampling of f1_data.py lines 207-252: shift times by gmin,
re-sort, then interpolate each channel onto the timeline. -/
def resampleDriver (gmin : ℚ) (timeline : List ℚ) (samples : List Sample) : RTrace :=
  let sorted := sortByTime (samples.map fun s => { s with t := s.t - gmin })
  { dist := timeline.map (interpPoints (sorted.map fun s => (s.t, s.dist)))
  , lap := timeline.map (interpPoints (sorted.map fun s => (s.t, s.lap))) }

/-! ## Track-status overlay builder (f1_data.py lines 254-275) -/

/-- A raw track-status change event: absolute session time and status. -/
structure TrackStatusEvent where
  time : ℚ
  status : String
deriving DecidableEq

/-- One overlay interval, end_time none meaning open. -/
structure TrackStatusInterval where
  status : String
  start_time : ℚ
  end_time : Option ℚ
deriving DecidableEq

/-- Mutation of the last accumulated interval, as
formatted_track_statuses[-1], whose end_time is set to start_time. -/
def setLastEnd : List TrackStatusInterval → ℚ → List TrackStatusInterval
  | [], _ => []
  | [iv], e => [{ iv with end_time := some e }]
  | iv :: iv2 :: rest, e => iv :: setLastEnd (iv2 :: rest) e

/-- Body of the loop at f1_data.py lines 260-275 for one status event. -/
def statusStep (gmin : ℚ) (acc : List TrackStatusInterval)
    (ev : TrackStatusEvent) : List TrackStatusInterval :=
  let startTime := ev.time - gmin
  setLastEnd acc startTime ++ [⟨ev.status, startTime, none⟩]

/-- The full overlay builder loop (f1_data.py lines 258-275). -/
def formatTrackStatuses (gmin : ℚ) (events : List TrackStatusEvent) :
    List TrackStatusInterval :=
  events.foldl (statusStep gmin) []

/-! ## Frame / leaderboard assembler (f1_data.py lines 277-365) -/

/-- The slice of a session result row that the assembler reads
(f1_data.py lines 68-85); the status and classification strings are not
read by the tick loop and are omitted. -/
structure DriverStatus where
  laps_completed : ℤ
  is_finished : Bool
  is_dnf : Bool
deriving DecidableEq

/-- Python round() on a rational: round half to even, as applied to the
interpolated lap channel at f1_data.py line 293. -/
def pyRound (q : ℚ) : ℤ :=
  if q - ⌊q⌋ < 1 / 2 then ⌊q⌋
  else if 1 / 2 < q - ⌊q⌋ then ⌊q⌋ + 1
  else if ⌊q⌋ % 2 = 0 then ⌊q⌋ else ⌊q⌋ + 1

/-- A snapshot row (f1_data.py lines 288-299), restricted to the fields
read downstream by the claims: code, race distance and rounded lap. -/
structure Car where
  code : String
  dist : ℚ
  lap : ℤ
deriving DecidableEq

/-- Snapshot of every driver at tick i (f1_data.py lines 286-299); dict
iteration order is the insertion order of resampled_data. -/
def mkSnapshot (resampled : List (String × RTrace)) (i : ℕ) : List Car :=
  resampled.map fun cd => ⟨cd.1, cd.2.dist.getD i 0, pyRound (cd.2.lap.getD i 0)⟩

/-- Descending order on race distance, the key of
snapshot.sort(key=dist, reverse=True) at f1_data.py line 307. -/
def distGE (a b : Car) : Prop := b.dist ≤ a.dist

instance : DecidableRel distGE := fun a b => inferInstanceAs (Decidable (b.dist ≤ a.dist))

instance : IsTotal Car distGE := ⟨fun a b => (le_total b.dist a.dist).imp id id⟩

instance : IsTrans Car distGE := ⟨fun _ _ _ h h2 => le_trans h2 h⟩

/-- Stable descending sort of a snapshot by race distance; Python list
sort is stable and reverse=True preserves the order of ties. -/
def sortSnapshot (s : List Car) : List Car := s.insertionSort distGE

/-- The accumulator state of the tick loop: driver_last_seen_lap,
driver_finish_frame, race_leader_finished_frame (f1_data.py lines 281-283). -/
structure AsmState where
  lastSeenLap : String → ℤ
  finishFrames : String → Option ℕ
  leaderFrame : Option ℕ

/-- Dict write driver_finish_frame[code] = i. -/
def updateFF (f : String → Option ℕ) (k : String) (i : ℕ) : String → Option ℕ :=
  fun c => if c = k then some i else f c

/-- Leader-finish detection (f1_data.py lines 313-319): no is_finished
check is performed on this path. -/
def leaderCheck (statusMap : String → Option DriverStatus) (leader : Car)
    (i : ℕ) (st : AsmState) : AsmState :=
  match statusMap leader.code with
  | none => st
  | some ds =>
    if ds.laps_completed < leader.lap ∧ st.leaderFrame = none then
      { st with leaderFrame := some i
              , finishFrames := updateFF st.finishFrames leader.code i }
    else st

/-- Per-driver finish detection for one car (f1_data.py lines 322-336):
the finish frame is recorded only for a driver whose is_finished flag
holds, and the last seen lap is recorded on every path. -/
def driverCheck (statusMap : String → Option DriverStatus) (i : ℕ)
    (st : AsmState) (car : Car) : AsmState :=
  match statusMap car.code with
  | none =>
    { st with lastSeenLap := fun c => if c = car.code then car.lap else st.lastSeenLap c }
  | some ds =>
    if ds.laps_completed < car.lap ∧ st.finishFrames car.code = none
        ∧ ds.is_finished = true then
      { st with finishFrames := updateFF st.finishFrames car.code i
              , lastSeenLap := fun c => if c = car.code then car.lap else st.lastSeenLap c }
    else
      { st with lastSeenLap := fun c => if c = car.code then car.lap else st.lastSeenLap c }

/-- The entry of one driver in an emitted frame (f1_data.py lines 346-357),
restricted to the fields any claim reads. -/
structure FrameDriver where
  dist : ℚ
  lap : ℤ
  position : ℕ
deriving DecidableEq

/-- One emitted frame (f1_data.py lines 359-365). -/
structure Frame where
  t : ℚ
  lap : ℤ
  drivers : List (String × FrameDriver)
  race_finished : Bool
  leader_finished_frame : Option ℕ
deriving DecidableEq

/-- The enumerate loop at f1_data.py lines 341-357, building the ranked
per-driver mapping with position = index + 1. -/
def mkFrameDataFrom : ℕ → List Car → List (String × FrameDriver)
  | _, [] => []
  | n, c :: cs => (c.code, ⟨c.dist, c.lap, n + 1⟩) :: mkFrameDataFrom (n + 1) cs

/-- Frame driver mapping from the sorted snapshot. -/
def mkFrameData (sorted : List Car) : List (String × FrameDriver) :=
  mkFrameDataFrom 0 sorted

/-- The bookkeeping state after one tick over the sorted snapshot:
the leader check (5b-5c boundary, f1_data.py lines 313-319) followed by
the per-driver loop over the whole sorted snapshot (lines 322-336). -/
def tickState (statusMap : String → Option DriverStatus) (i : ℕ)
    (leader : Car) (others : List Car) (st : AsmState) : AsmState :=
  (leader :: others).foldl (driverCheck statusMap i) (leaderCheck statusMap leader i st)

/-- The frame emitted at time t from the sorted snapshot and the state
after the tick (f1_data.py lines 338-365). -/
def mkFrame (t : ℚ) (leader : Car) (others : List Car) (st2 : AsmState) : Frame :=
  { t := t
  , lap := leader.lap
  , drivers := mkFrameData (leader :: others)
  , race_finished := st2.leaderFrame.isSome
  , leader_finished_frame := st2.leaderFrame }

/-- The tick loop of f1_data.py lines 285-365.  An empty snapshot is
skipped without emitting a frame; the sorted snapshot is empty exactly
when the snapshot is (insertionSort is a permutation), so matching on the
sorted list is the same defensive test as the source. -/
def buildFramesAux (statusMap : String → Option DriverStatus)
    (resampled : List (String × RTrace)) :
    List ℚ → ℕ → AsmState → List Frame
  | [], _, _ => []
  | t :: rest, i, st =>
    match sortSnapshot (mkSnapshot resampled i) with
    | [] => buildFramesAux statusMap resampled rest (i + 1) st
    | leader :: others =>
      let st2 := tickState statusMap i leader others st
      mkFrame t leader others st2 ::
        buildFramesAux statusMap resampled rest (i + 1) st2

/-- Initial bookkeeping state (f1_data.py lines 281-283). -/
def initState : AsmState := ⟨fun _ => 0, fun _ => none, none⟩

/-- The whole frame-assembly pass over the timeline. -/
def buildFrames (statusMap : String → Option DriverStatus)
    (resampled : List (String × RTrace)) (timeline : List ℚ) : List Frame :=
  buildFramesAux statusMap resampled timeline 0 initState

/-! ## The computation core of get_race_telemetry

Composition of the stages of f1_data.py lines 89-365, with the cache,
printing, colors and JSON persistence (pure I/O) outside the model.  A
failure of the Python code (an uncaught exception) is an error value. -/

/-- Computation core of get_race_telemetry: normalize every driver,
drop drivers with no usable samples, take global bounds, build the
timeline, resample, and assemble frames.  When no driver produced any
sample both bounds are still None at line 202 and
np.arange(None, None, DT) raises a TypeError, modelled as an error. -/
def get_race_telemetry (statusMap : String → Option DriverStatus)
    (driversLaps : List (String × List LapTel)) : Except String (List Frame) :=
  let driverData := (driversLaps.map fun p => (p.1, normalizeDriver p.2)).filter
    fun p => !p.2.isEmpty
  match globalBounds (driverData.map fun p => p.2) with
  | none => .error "TypeError: np.arange called with None bounds (no driver telemetry)"
  | some (gmin, gmax) =>
    let timeline := mkTimeline gmin gmax
    let resampled := driverData.map fun p => (p.1, resampleDriver gmin timeline p.2)
    .ok (buildFrames statusMap resampled timeline)

/-! ## Leaderboard verifier (src/leaderboard_verifier.py) -/

/-- One raw entry of the Jolpica response Results array: the driver code
and driverId strings and the textual position and status fields. -/
structure RawResult where
  code : String
  driverId : String
  position : String
  status : String
deriving DecidableEq

/-- The outcome of the HTTP request plus JSON decode, as seen by
fetch_race_results_from_jolpica: any requests.RequestException (transport
failure, bad HTTP status, JSON decode error) on one side, a decoded
MRData.RaceTable.Races array on the other. -/
inductive JolpicaResponse where
  | transportError (msg : String)
  | payload (races : List (List RawResult))
deriving DecidableEq

/-- A parsed driver result (leaderboard_verifier.py lines 65-70). -/
structure VerifiedResult where
  code : String
  position : ℤ
  driver_id : String
  status : String
deriving DecidableEq

/-- Decimal digit value of a character, if any. -/
def charDigit (c : Char) : Option ℕ :=
  if 48 ≤ c.toNat ∧ c.toNat ≤ 57 then some (c.toNat - 48) else none

/-- Accumulate decimal digits; fails on any non-digit. -/
def digitsVal : List Char → ℕ → Option ℕ
  | [], acc => some acc
  | c :: cs, acc =>
    match charDigit c with
    | none => none
    | some d => digitsVal cs (acc * 10 + d)

/-- Python int(s) on the strings this API yields: an optional sign
followed by at least one decimal digit; anything else raises ValueError. -/
def pyInt : String → Option ℤ
  | s =>
    match s.data with
    | [] => none
    | '-' :: cs => if cs.isEmpty then none else (digitsVal cs 0).map fun n => -(n : ℤ)
    | cs => (digitsVal cs 0).map fun n => (n : ℤ)

/-- Position parsing of leaderboard_verifier.py lines 59-63: non-integer
positions (retired drivers and the like) become the sentinel 999. -/
def parsePosition (s : String) : ℤ :=
  match pyInt s with
  | some n => n
  | none => 999

/-- Model of fetch_race_results_from_jolpica (lines 16-80): None on
transport or decode failure, on an empty Races array, and on an empty
Results array of the first race; otherwise the parsed result list. -/
def fetch_race_results_from_jolpica (resp : JolpicaResponse) :
    Option (List VerifiedResult) :=
  match resp with
  | .transportError _ => none
  | .payload races =>
    match races with
    | [] => none
    | race :: _ =>
      if race.isEmpty then none
      else some (race.map fun r => ⟨r.code, parsePosition r.position, r.driverId, r.status⟩)

/-- Python dict write m[k] = v on an association list. -/
def dictInsert (m : List (String × ℤ)) (k : String) (v : ℤ) : List (String × ℤ) :=
  if m.any fun p => p.1 = k then m.map fun p => if p.1 = k then (k, v) else p
  else m ++ [(k, v)]

/-- verified_positions built from the API results
(leaderboard_verifier.py lines 108-112). -/
def buildVerifiedPositions (rs : List VerifiedResult) : List (String × ℤ) :=
  rs.foldl (fun m r => dictInsert m r.code r.position) []

/-- Model of verify_and_correct_final_positions (lines 83-137): on a
missing or empty result list return the input unchanged; otherwise return
the verified map when some input code disagrees with its verified
position, and the input unchanged when none does. -/
def verify_and_correct_final_positions (current : List (String × ℤ))
    (resp : JolpicaResponse) : List (String × ℤ) :=
  match fetch_race_results_from_jolpica resp with
  | none => current
  | some apiResults =>
    if apiResults.isEmpty then current
    else
      let verified := buildVerifiedPositions apiResults
      let discrepancies := current.filter fun p =>
        match verified.lookup p.1 with
        | some vp => decide (p.2 ≠ vp)
        | none => false
      if discrepancies.isEmpty then current else verified

/-! ## Derived quantities used to state the claims -/

/-- Minimum in-lap distance of a lap, 0 for a lap with no samples. -/
def lapMin (lap : LapTel) : ℚ :=
  match lap.samples with
  | [] => 0
  | p :: ps => distMin p ps

/-- Lap length: the maximum shifted in-lap distance, 0 for a lap with no
samples (such a lap is skipped and contributes nothing to the total). -/
def lapLength (lap : LapTel) : ℚ :=
  match lap.samples with
  | [] => 0
  | p :: ps => distMax p ps - distMin p ps

/-- Running total carried into lap k: the sum of the lengths of the laps
before it. -/
def totalBefore (laps : List LapTel) (k : ℕ) : ℚ :=
  ((laps.take k).map lapLength).sum

/-- Default lap used only to state closed forms over list indices. -/
def emptyLap : LapTel := ⟨0, []⟩

/-- Two laps are time-separated when every sample of the first is no
later than every sample of the second (no fastf1 lap padding overlap). -/
def lapsSeparated (l l2 : LapTel) : Prop :=
  ∀ q ∈ l.samples, ∀ q2 ∈ l2.samples, q.1 ≤ q2.1

/-- A lap whose samples are ordered in time with non-decreasing in-lap
cumulative distance. -/
def lapMonotone (lap : LapTel) : Prop :=
  lap.samples.Pairwise fun q q2 => q.1 ≤ q2.1 ∧ q.2 ≤ q2.2

/-- Modelled from the spec wording of section 4.4: each interval ends at
the shifted start time of the next event, and the last interval stays open.
Compared against the source-derived formatTrackStatuses. -/
def intervalsSpec (gmin : ℚ) : List TrackStatusEvent → List TrackStatusInterval
  | [] => []
  | [e] => [⟨e.status, e.time - gmin, none⟩]
  | e :: e2 :: rest =>
    ⟨e.status, e.time - gmin, some (e2.time - gmin)⟩ :: intervalsSpec gmin (e2 :: rest)

/-! ## Concrete inputs used by witnesses and counterexamples -/

/-- The two-lap driver of the spec example: lap 1 in-lap distances
0, 50, 100 and lap 2 in-lap distances 0, 60, 120, at increasing times. -/
def exampleTwoLaps : List LapTel :=
  [⟨1, [(0, 0), (1, 50), (2, 100)]⟩, ⟨2, [(3, 0), (4, 60), (5, 120)]⟩]

/-- Two laps whose telemetry overlaps in time, as fastf1 lap padding
produces: lap 2 has samples at t = 4 and t = 5 although lap 1 still has a
sample at t = 10. -/
def overlappingLaps : List LapTel :=
  [⟨1, [(0, 0), (10, 100)]⟩, ⟨2, [(4, 0), (5, 30), (15, 120)]⟩]

/-- A one-driver trace whose span is 3/50 s, so that the span divided by
the tick step is the non-integer 3/2. -/
def shortTrace : List Sample := [⟨0, 0, 1⟩, ⟨3/50, 10, 1⟩]

/-- Status map of a lone driver A credited with 0 completed laps,
classified as finished. -/
def smA : String → Option DriverStatus :=
  fun c => if c = "A" then some ⟨0, true, false⟩ else none

/-- Status map of a lone driver A credited with 0 completed laps,
classified DNF (is_finished false, is_dnf true). -/
def smDNF : String → Option DriverStatus :=
  fun c => if c = "A" then some ⟨0, false, true⟩ else none

/-- Resampled channels of two drivers over a one-tick timeline. -/
def twoCarTraces : List (String × RTrace) :=
  [("A", ⟨[10], [1]⟩), ("B", ⟨[5], [1]⟩)]

/-- Resampled channels of one driver over a two-tick timeline, already on
lap 1 at the first tick. -/
def oneCarTrace : List (String × RTrace) := [("A", ⟨[10, 20], [1, 1]⟩)]

/-- The frame emitted by the one-tick two-driver run used as the C1
witness. -/
def frameW : Frame := ⟨0, 1, [("A", ⟨10, 1, 1⟩), ("B", ⟨5, 1, 2⟩)], false, none⟩

/-- First frame of the two-tick one-driver run: the lone driver leads on
lap 1 with 0 official laps, so the leader-finish frame is recorded at 0. -/
def frameX0 : Frame := ⟨0, 1, [("A", ⟨10, 1, 1⟩)], true, some 0⟩

/-- Second frame of the two-tick one-driver run. -/
def frameX1 : Frame := ⟨1, 1, [("A", ⟨20, 1, 1⟩)], true, some 0⟩

/-- The snapshot row of driver A at distance 10 on rounded lap 1. -/
def carA : Car := ⟨"A", 10, 1⟩

/-- A Jolpica response with one race listing drivers A (position 1) and
B (position 2). -/
def respAB : JolpicaResponse :=
  .payload [[⟨"A", "alice", "1", "Finished"⟩, ⟨"B", "bob", "2", "Finished"⟩]]

/-- The parsed form of respAB. -/
def resultsAB : List VerifiedResult :=
  [⟨"A", 1, "alice", "Finished"⟩, ⟨"B", 2, "bob", "Finished"⟩]

/-! ## Theorems -/

theorem intervalsSpec_ne_nil (gmin : ℚ) (e : TrackStatusEvent)
    (evs : List TrackStatusEvent) : intervalsSpec gmin (e :: evs) ≠ [] := by
  cases evs <;> simp [intervalsSpec]

theorem setLastEnd_cons (iv : TrackStatusInterval) (l : List TrackStatusInterval)
    (hne : l ≠ []) (e : ℚ) : setLastEnd (iv :: l) e = iv :: setLastEnd l e := by
  cases l with
  | nil => exact absurd rfl hne
  | cons iv2 rest => rfl

theorem intervalsSpec_snoc (gmin : ℚ) (evs : List TrackStatusEvent)
    (e : TrackStatusEvent) :
    intervalsSpec gmin (evs ++ [e]) =
      setLastEnd (intervalsSpec gmin evs) (e.time - gmin)
        ++ [⟨e.status, e.time - gmin, none⟩] := by
  induction evs with
  | nil => simp [intervalsSpec, setLastEnd]
  | cons a tail ih =>
    cases tail with
    | nil => simp [intervalsSpec, setLastEnd]
    | cons b rest =>
      have hne := intervalsSpec_ne_nil gmin b rest
      simp only [List.cons_append, List.append_eq, intervalsSpec] at ih ⊢
      rw [ih, setLastEnd_cons _ _ hne, List.cons_append]

/-- C9.  For every ordered event list, the overlay builder closes each
interval at the shifted start of the next event and leaves the last interval
open; and on the concrete three-event input of the spec with globalMin 0 it
produces exactly the intervals Clear 0-50, Yellow 50-80, Clear 80-open. -/
theorem track_status_intervals :
    (∀ (gmin : ℚ) (events : List TrackStatusEvent),
        formatTrackStatuses gmin events = intervalsSpec gmin events)
    ∧ formatTrackStatuses 0 [⟨0, "Clear"⟩, ⟨50, "Yellow"⟩, ⟨80, "Clear"⟩] =
        [⟨"Clear", 0, some 50⟩, ⟨"Yellow", 50, some 80⟩, ⟨"Clear", 80, none⟩] := by
  have general : ∀ (gmin : ℚ) (events : List TrackStatusEvent),
      formatTrackStatuses gmin events = intervalsSpec gmin events := by
    intro gmin events
    induction events using List.reverseRecOn with
    | nil => rfl
    | append_singleton evs e ih =>
      rw [intervalsSpec_snoc, ← ih]
      simp [formatTrackStatuses, List.foldl_append, statusStep]
  refine ⟨general, ?_⟩
  norm_num [formatTrackStatuses, statusStep, setLastEnd]

/-- C8.  Every failure mode of the external fetch (transport or decode
error, empty Races array, empty Results array of the first race) makes
the correction step return its input mapping unchanged. -/
theorem verifier_degrades_on_failure :
    (∀ (current : List (String × ℤ)) (msg : String),
        verify_and_correct_final_positions current (.transportError msg) = current)
    ∧ (∀ current,
        verify_and_correct_final_positions current (.payload []) = current)
    ∧ ∀ current races,
        verify_and_correct_final_positions current (.payload ([] :: races)) = current :=
  ⟨fun _ _ => rfl, fun _ => rfl, fun _ _ => rfl⟩

theorem normalizeLaps_nil_of_empty (laps : List LapTel)
    (h : ∀ lap ∈ laps, lap.samples = []) : ∀ total, normalizeLaps laps total = [] := by
  induction laps with
  | nil => intro total; rfl
  | cons lap rest ih =>
    intro total
    have hlap := h lap (List.mem_cons_self lap rest)
    have hrest : ∀ l ∈ rest, l.samples = [] := fun l hl => h l (List.mem_cons_of_mem _ hl)
    simp only [normalizeLaps, hlap]
    exact ih hrest total

/-- C5 counterexample.  On an empty session the computation does not
degrade to an empty frame sequence: it fails, because both global bounds
are still None when np.arange is called. -/
theorem empty_session_not_ok :
    get_race_telemetry (fun _ => none) [] ≠ Except.ok [] ∧
      (get_race_telemetry (fun _ => none) []).isOk = false := by
  constructor
  · intro h
    exact Except.noConfusion h
  · rfl

/-- C5 amended.  If no driver produced any usable telemetry sample, every
driver is dropped, the global bounds stay None, and the pipeline raises
(np.arange(None, None, DT) is a TypeError) instead of producing frames. -/
theorem empty_session_raises (statusMap : String → Option DriverStatus)
    (driversLaps : List (String × List LapTel))
    (h : ∀ p ∈ driversLaps, ∀ lap ∈ p.2, lap.samples = []) :
    get_race_telemetry statusMap driversLaps =
      Except.error "TypeError: np.arange called with None bounds (no driver telemetry)" := by
  have hfilter : (driversLaps.map fun p => (p.1, normalizeDriver p.2)).filter
      (fun p => !p.2.isEmpty) = [] := by
    rw [List.filter_eq_nil_iff]
    intro a ha
    rcases List.mem_map.mp ha with ⟨p, hp, rfl⟩
    have : normalizeDriver p.2 = [] := by
      unfold normalizeDriver sortByTime
      rw [normalizeLaps_nil_of_empty p.2 (h p hp) 0]
      rfl
    simp [this]
  unfold get_race_telemetry
  rw [hfilter]
  rfl

theorem empty_session_raises_witness :
    get_race_telemetry (fun _ => none) [("A", [⟨1, []⟩])] =
      Except.error "TypeError: np.arange called with None bounds (no driver telemetry)" :=
  empty_session_raises (fun _ => none) [("A", [⟨1, []⟩])] (by
    intro p hp lap hlap
    simp only [List.mem_singleton] at hp
    subst hp
    simp only [List.mem_singleton] at hlap
    subst hlap
    rfl)

theorem DT_pos : 0 < DT := by norm_num [DT, FPS]

theorem mkTimeline_length (gmin gmax : ℚ) :
    (mkTimeline gmin gmax).length = ⌈(gmax - gmin) / DT⌉.toNat := by
  unfold mkTimeline arange
  rw [List.length_map, List.length_map, List.length_range]

/-- C3 counterexample.  A single trace spanning 3/50 s gives global
bounds (0, 3/50); the grid then has 2 ticks while the floor of the span
divided by the tick step is 1, so the claimed tick count is wrong. -/
theorem tick_count_not_floor :
    globalBounds [shortTrace] = some (0, 3/50)
    ∧ (mkTimeline 0 (3/50)).length = 2
    ∧ (⌊(((3:ℚ)/50) - 0) / DT⌋).toNat = 1 := by
  refine ⟨?_, ?_, ?_⟩
  · norm_num [globalBounds, updateBounds, shortTrace]
  · rw [mkTimeline_length]
    rw [show (((3:ℚ)/50) - 0) / DT = 3/2 by norm_num [DT, FPS]]
    rw [show (⌈(3:ℚ)/2⌉ = 2) by rw [Int.ceil_eq_iff] <;> norm_num]
    rfl
  · rw [show (((3:ℚ)/50) - 0) / DT = 3/2 by norm_num [DT, FPS]]
    norm_num

/-- C3 amended.  The grid starts at 0 when it is nonempty (that is, when
globalMin < globalMax), every tick is nonnegative and strictly below
globalMax - globalMin, and the number of ticks is the ceiling - not the
floor - of (globalMax - globalMin) / DT, matching np.arange. -/
theorem timeline_grid_bounds (gmin gmax : ℚ) :
    (∀ t ∈ mkTimeline gmin gmax, 0 ≤ t ∧ t < gmax - gmin)
    ∧ (mkTimeline gmin gmax).length = ⌈(gmax - gmin) / DT⌉.toNat
    ∧ (gmin < gmax → (mkTimeline gmin gmax).head? = some 0) := by
  refine ⟨?_, mkTimeline_length gmin gmax, ?_⟩
  · intro t ht
    simp only [mkTimeline, arange, List.map_map, List.mem_map, List.mem_range,
      Function.comp] at ht
    obtain ⟨k, hk, rfl⟩ := ht
    have hteq : gmin + (k : ℚ) * DT - gmin = (k : ℚ) * DT := by ring
    rw [hteq]
    refine ⟨mul_nonneg (Nat.cast_nonneg k) DT_pos.le, ?_⟩
    have hk2 : ((k : ℤ) : ℚ) < (gmax - gmin) / DT := Int.lt_ceil.mp (Int.lt_toNat.mp hk)
    have hk3 : (k : ℚ) < (gmax - gmin) / DT := by exact_mod_cast hk2
    exact (lt_div_iff₀ DT_pos).mp hk3
  · intro hlt
    have hpos : 0 < (gmax - gmin) / DT := div_pos (by linarith) DT_pos
    have hceil : 0 < ⌈(gmax - gmin) / DT⌉ := Int.ceil_pos.mpr hpos
    have hn : ⌈(gmax - gmin) / DT⌉.toNat ≠ 0 := by omega
    rcases Nat.exists_eq_succ_of_ne_zero hn with ⟨m, hm⟩
    simp only [mkTimeline, arange, hm, List.range_succ_eq_map]
    simp

theorem flatMap_map {α β γ : Type} (g : α → β) (f : β → List γ) :
    ∀ l : List α, (l.map g).flatMap f = l.flatMap fun a => f (g a) := by
  intro l
  induction l with
  | nil => rfl
  | cons a tl ih => simp only [List.map_cons, List.flatMap_cons, ih]

theorem flatMap_congr {α β : Type} {l : List α} {f g : α → List β}
    (h : ∀ a ∈ l, f a = g a) : l.flatMap f = l.flatMap g := by
  induction l with
  | nil => rfl
  | cons a tl ih =>
    simp only [List.flatMap_cons]
    rw [h a (List.mem_cons_self a tl), ih fun b hb => h b (List.mem_cons_of_mem a hb)]

theorem totalBefore_cons (lap : LapTel) (rest : List LapTel) (k : ℕ) :
    totalBefore (lap :: rest) (k + 1) = lapLength lap + totalBefore rest k := by
  simp [totalBefore, List.take_succ_cons]

/-- Closed form of the per-lap normalization loop: the sample of lap k at
in-lap distance d gets race distance total + (sum of the lengths of laps
before k) + (d - minimum in-lap distance of lap k). -/
theorem normalizeLaps_closed_form (laps : List LapTel) :
    ∀ total : ℚ,
      normalizeLaps laps total =
        (List.range laps.length).flatMap fun k =>
          (laps.getD k emptyLap).samples.map fun s =>
            ⟨s.1, total + totalBefore laps k + (s.2 - lapMin (laps.getD k emptyLap)),
              (laps.getD k emptyLap).lapNumber⟩ := by
  induction laps with
  | nil => intro total; rfl
  | cons lap rest ih =>
    obtain ⟨lapN, samples⟩ := lap
    intro total
    rw [List.length_cons, List.range_succ_eq_map, List.flatMap_cons, flatMap_map]
    simp only [List.getD_cons_succ, List.getD_cons_zero, totalBefore_cons]
    cases samples with
    | nil =>
      rw [show normalizeLaps (⟨lapN, []⟩ :: rest) total = normalizeLaps rest total from rfl]
      rw [ih total]
      simp [lapLength]
    | cons p ps =>
      rw [show normalizeLaps (⟨lapN, p :: ps⟩ :: rest) total =
        ((p :: ps).map fun s => ⟨s.1, total + (s.2 - distMin p ps), lapN⟩)
          ++ normalizeLaps rest (total + (distMax p ps - distMin p ps)) from rfl]
      congr 1
      · apply List.map_congr_left
        intro s _
        simp only [Sample.mk.injEq, lapMin, totalBefore, List.take_zero, List.map_nil,
          List.sum_nil, true_and, and_true]
        ring
      · rw [ih (total + (distMax p ps - distMin p ps))]
        apply flatMap_congr
        intro k _
        apply List.map_congr_left
        intro s _
        simp only [Sample.mk.injEq, lapLength, true_and, and_true]
        ring

/-- C2.  The normalizer processes laps in order, shifting each lap to
start at 0, chaining race distance through the running total of lap
lengths (the closed form above), and on the two-lap example of the spec the
race-cumulative-distance sequence is 0, 50, 100, 100, 160, 220. -/
theorem normalizer_race_distance :
    (∀ (laps : List LapTel) (total : ℚ),
      normalizeLaps laps total =
        (List.range laps.length).flatMap fun k =>
          (laps.getD k emptyLap).samples.map fun s =>
            ⟨s.1, total + totalBefore laps k + (s.2 - lapMin (laps.getD k emptyLap)),
              (laps.getD k emptyLap).lapNumber⟩)
    ∧ (normalizeDriver exampleTwoLaps).map (fun s => s.dist) =
        [0, 50, 100, 100, 160, 220] := by
  refine ⟨fun laps => normalizeLaps_closed_form laps, ?_⟩
  norm_num [normalizeDriver, normalizeLaps, sortByTime, exampleTwoLaps,
    List.insertionSort, List.orderedInsert, timeLE, distMin, distMax]

theorem foldl_min_le_init (l : List (ℚ × ℚ)) : ∀ a : ℚ,
    l.foldl (fun m q => min m q.2) a ≤ a := by
  induction l with
  | nil => intro a; exact le_refl a
  | cons q rest ih => intro a; exact le_trans (ih (min a q.2)) (min_le_left _ _)

theorem foldl_min_le_mem (l : List (ℚ × ℚ)) : ∀ a : ℚ, ∀ q ∈ l,
    l.foldl (fun m p => min m p.2) a ≤ q.2 := by
  induction l with
  | nil => intro a q hq; exact absurd hq (List.not_mem_nil q)
  | cons p rest ih =>
    intro a q hq
    rcases List.mem_cons.mp hq with h | h
    · subst h
      exact le_trans (foldl_min_le_init rest (min a q.2)) (min_le_right _ _)
    · exact ih (min a p.2) q h

theorem le_foldl_max_init (l : List (ℚ × ℚ)) : ∀ a : ℚ,
    a ≤ l.foldl (fun m q => max m q.2) a := by
  induction l with
  | nil => intro a; exact le_refl a
  | cons q rest ih => intro a; exact le_trans (le_max_left _ _) (ih (max a q.2))

theorem le_foldl_max_mem (l : List (ℚ × ℚ)) : ∀ a : ℚ, ∀ q ∈ l,
    q.2 ≤ l.foldl (fun m p => max m p.2) a := by
  induction l with
  | nil => intro a q hq; exact absurd hq (List.not_mem_nil q)
  | cons p rest ih =>
    intro a q hq
    rcases List.mem_cons.mp hq with h | h
    · subst h
      exact le_trans (le_max_right _ _) (le_foldl_max_init rest (max a q.2))
    · exact ih (max a p.2) q h

theorem distMin_le (p : ℚ × ℚ) (ps : List (ℚ × ℚ)) : ∀ q ∈ p :: ps, distMin p ps ≤ q.2 := by
  intro q hq
  rcases List.mem_cons.mp hq with h | h
  · subst h; exact foldl_min_le_init ps q.2
  · exact foldl_min_le_mem ps p.2 q h

theorem le_distMax (p : ℚ × ℚ) (ps : List (ℚ × ℚ)) : ∀ q ∈ p :: ps, q.2 ≤ distMax p ps := by
  intro q hq
  rcases List.mem_cons.mp hq with h | h
  · subst h; exact le_foldl_max_init ps q.2
  · exact le_foldl_max_mem ps p.2 q h

theorem distMin_le_distMax (p : ℚ × ℚ) (ps : List (ℚ × ℚ)) :
    distMin p ps ≤ distMax p ps :=
  le_trans (distMin_le p ps p (List.mem_cons_self p ps))
    (le_distMax p ps p (List.mem_cons_self p ps))

/-- Every sample of the normalized trace comes from some lap sample at
the same time, and its race distance is at least the incoming running
total. -/
theorem normalizeLaps_mem (laps : List LapTel) :
    ∀ (total : ℚ) (s : Sample), s ∈ normalizeLaps laps total →
      (∃ lap ∈ laps, ∃ q ∈ lap.samples, s.t = q.1) ∧ total ≤ s.dist := by
  induction laps with
  | nil => intro total s hs; exact absurd hs (List.not_mem_nil s)
  | cons lap rest ih =>
    obtain ⟨lapN, samples⟩ := lap
    intro total s hs
    cases samples with
    | nil =>
      rw [show normalizeLaps (⟨lapN, []⟩ :: rest) total = normalizeLaps rest total
        from rfl] at hs
      obtain ⟨⟨lap2, h2, hq⟩, hd⟩ := ih total s hs
      exact ⟨⟨lap2, List.mem_cons_of_mem _ h2, hq⟩, hd⟩
    | cons p ps =>
      rw [show normalizeLaps (⟨lapN, p :: ps⟩ :: rest) total =
        ((p :: ps).map fun q => ⟨q.1, total + (q.2 - distMin p ps), lapN⟩)
          ++ normalizeLaps rest (total + (distMax p ps - distMin p ps)) from rfl] at hs
      rcases List.mem_append.mp hs with h | h
      · obtain ⟨q, hq, rfl⟩ := List.mem_map.mp h
        refine ⟨⟨⟨lapN, p :: ps⟩, List.mem_cons_self _ _, q, hq, rfl⟩, ?_⟩
        have := distMin_le p ps q hq
        simp only
        linarith
      · obtain ⟨⟨lap2, h2, hq⟩, hd⟩ := ih (total + (distMax p ps - distMin p ps)) s h
        have := distMin_le_distMax p ps
        exact ⟨⟨lap2, List.mem_cons_of_mem _ h2, hq⟩, by linarith⟩

/-- Under time-separated laps with time-sorted samples, the concatenated
normalized trace is already sorted by time. -/
theorem normalizeLaps_pairwise_time (laps : List LapTel) :
    laps.Pairwise lapsSeparated → (∀ lap ∈ laps, lapMonotone lap) →
      ∀ total : ℚ, (normalizeLaps laps total).Pairwise timeLE := by
  induction laps with
  | nil => intro _ _ total; exact List.Pairwise.nil
  | cons lap rest ih =>
    intro hsep hmono total
    obtain ⟨hsl, hsep2⟩ := List.pairwise_cons.mp hsep
    have hm0 : lapMonotone lap := hmono lap (List.mem_cons_self _ _)
    have hmr : ∀ l ∈ rest, lapMonotone l := fun l hl => hmono l (List.mem_cons_of_mem _ hl)
    obtain ⟨lapN, samples⟩ := lap
    cases samples with
    | nil =>
      rw [show normalizeLaps (⟨lapN, []⟩ :: rest) total = normalizeLaps rest total
        from rfl]
      exact ih hsep2 hmr total
    | cons p ps =>
      rw [show normalizeLaps (⟨lapN, p :: ps⟩ :: rest) total =
        ((p :: ps).map fun q => ⟨q.1, total + (q.2 - distMin p ps), lapN⟩)
          ++ normalizeLaps rest (total + (distMax p ps - distMin p ps)) from rfl]
      rw [List.pairwise_append]
      refine ⟨?_, ih hsep2 hmr _, ?_⟩
      · rw [List.pairwise_map]
        exact hm0.imp fun h => h.1
      · intro a ha b hb
        obtain ⟨q, hq, rfl⟩ := List.mem_map.mp ha
        obtain ⟨⟨lap2, h2, q2, hq2, ht2⟩, _⟩ := normalizeLaps_mem rest _ b hb
        have := hsl lap2 h2 q hq q2 hq2
        unfold timeLE
        simp only
        rw [ht2]
        exact this

/-- With time-sorted, distance-monotone samples within each lap, the
concatenated normalized trace has non-decreasing race distance. -/
theorem normalizeLaps_pairwise_dist (laps : List LapTel) :
    (∀ lap ∈ laps, lapMonotone lap) →
      ∀ total : ℚ, (normalizeLaps laps total).Pairwise fun a b => a.dist ≤ b.dist := by
  induction laps with
  | nil => intro _ total; exact List.Pairwise.nil
  | cons lap rest ih =>
    intro hmono total
    have hm0 : lapMonotone lap := hmono lap (List.mem_cons_self _ _)
    have hmr : ∀ l ∈ rest, lapMonotone l := fun l hl => hmono l (List.mem_cons_of_mem _ hl)
    obtain ⟨lapN, samples⟩ := lap
    cases samples with
    | nil =>
      rw [show normalizeLaps (⟨lapN, []⟩ :: rest) total = normalizeLaps rest total
        from rfl]
      exact ih hmr total
    | cons p ps =>
      rw [show normalizeLaps (⟨lapN, p :: ps⟩ :: rest) total =
        ((p :: ps).map fun q => ⟨q.1, total + (q.2 - distMin p ps), lapN⟩)
          ++ normalizeLaps rest (total + (distMax p ps - distMin p ps)) from rfl]
      rw [List.pairwise_append]
      refine ⟨?_, ih hmr _, ?_⟩
      · rw [List.pairwise_map]
        refine hm0.imp fun h => ?_
        simp only
        linarith [h.2]
      · intro a ha b hb
        obtain ⟨q, hq, rfl⟩ := List.mem_map.mp ha
        obtain ⟨_, hd⟩ := normalizeLaps_mem rest _ b hb
        have := le_distMax p ps q hq
        simp only
        linarith

/-- C6 counterexample.  With the time overlap produced by fastf1 lap
padding (lap 2 already sampled at t = 4 and t = 5 while lap 1 still has a
sample at t = 10), the time-sorted trace has race distances
0, 100, 130, 100, 220, which decrease. -/
theorem race_distance_not_monotone :
    ¬ (normalizeDriver overlappingLaps).Pairwise fun a b : Sample => a.dist ≤ b.dist := by
  have heval : normalizeDriver overlappingLaps =
      [⟨0, 0, 1⟩, ⟨4, 100, 2⟩, ⟨5, 130, 2⟩, ⟨10, 100, 1⟩, ⟨15, 220, 2⟩] := by
    norm_num [normalizeDriver, normalizeLaps, sortByTime, overlappingLaps,
      List.insertionSort, List.orderedInsert, timeLE, distMin, distMax]
  rw [heval]
  intro h
  rcases List.pairwise_cons.mp h with ⟨_, h2⟩
  rcases List.pairwise_cons.mp h2 with ⟨_, h3⟩
  rcases List.pairwise_cons.mp h3 with ⟨h4, _⟩
  have := h4 ⟨10, 100, 1⟩ (List.mem_cons_self _ _)
  norm_num at this

/-- C6 amended.  The race-cumulative-distance is non-decreasing across
the time-sorted trace provided the samples of each lap are time-sorted with
non-decreasing in-lap distance and consecutive laps do not overlap in
time; with overlapping lap telemetry the invariant can fail (see the
counterexample). -/
theorem race_distance_monotone (laps : List LapTel)
    (hsep : laps.Pairwise lapsSeparated)
    (hmono : ∀ lap ∈ laps, lapMonotone lap) :
    (normalizeDriver laps).Pairwise fun a b => a.dist ≤ b.dist := by
  have htime : List.Sorted timeLE (normalizeLaps laps 0) :=
    normalizeLaps_pairwise_time laps hsep hmono 0
  unfold normalizeDriver sortByTime
  rw [List.Sorted.insertionSort_eq htime]
  exact normalizeLaps_pairwise_dist laps hmono 0

theorem race_distance_monotone_witness :
    (normalizeDriver exampleTwoLaps).Pairwise fun a b => a.dist ≤ b.dist :=
  race_distance_monotone exampleTwoLaps
    (by
      norm_num [exampleTwoLaps, List.pairwise_cons, lapsSeparated]
      refine ⟨?_, ?_, ?_⟩ <;>
        rintro a b (⟨rfl, rfl⟩ | ⟨rfl, rfl⟩ | ⟨rfl, rfl⟩) <;> norm_num)
    (by norm_num [exampleTwoLaps, lapMonotone, List.pairwise_cons])

theorem mem_of_getElem? {α : Type} {l : List α} {n : ℕ} {a : α}
    (h : l[n]? = some a) : a ∈ l := by
  obtain ⟨hlt, rfl⟩ := List.getElem?_eq_some_iff.mp h
  exact List.getElem_mem hlt

theorem buildFramesAux_cons_nil (sm : String → Option DriverStatus)
    (rs : List (String × RTrace)) (t : ℚ) (rest : List ℚ) (i : ℕ) (st : AsmState)
    (h : sortSnapshot (mkSnapshot rs i) = []) :
    buildFramesAux sm rs (t :: rest) i st = buildFramesAux sm rs rest (i + 1) st := by
  conv_lhs => rw [buildFramesAux]
  rw [h]

theorem buildFramesAux_cons_cons (sm : String → Option DriverStatus)
    (rs : List (String × RTrace)) (t : ℚ) (rest : List ℚ) (i : ℕ) (st : AsmState)
    (leader : Car) (others : List Car)
    (h : sortSnapshot (mkSnapshot rs i) = leader :: others) :
    buildFramesAux sm rs (t :: rest) i st =
      mkFrame t leader others (tickState sm i leader others st) ::
        buildFramesAux sm rs rest (i + 1) (tickState sm i leader others st) := by
  conv_lhs => rw [buildFramesAux]
  rw [h]

theorem mkFrameDataFrom_length (l : List Car) : ∀ n : ℕ,
    (mkFrameDataFrom n l).length = l.length := by
  induction l with
  | nil => intro n; rfl
  | cons c cs ih => intro n; simp [mkFrameDataFrom, ih]

theorem mkFrameDataFrom_positions (l : List Car) : ∀ n : ℕ,
    (mkFrameDataFrom n l).map (fun p => p.2.position) = List.range' (n + 1) l.length := by
  induction l with
  | nil => intro n; rfl
  | cons c cs ih =>
    intro n
    rw [show mkFrameDataFrom n (c :: cs) =
      (c.code, ⟨c.dist, c.lap, n + 1⟩) :: mkFrameDataFrom (n + 1) cs from rfl]
    rw [List.length_cons, List.range'_succ, List.map_cons, ih (n + 1)]

theorem mkFrameDataFrom_dist_mem (l : List Car) : ∀ (n : ℕ) (p : String × FrameDriver),
    p ∈ mkFrameDataFrom n l → ∃ c ∈ l, p.2.dist = c.dist := by
  induction l with
  | nil => intro n p hp; exact absurd hp (List.not_mem_nil p)
  | cons c cs ih =>
    intro n p hp
    rw [show mkFrameDataFrom n (c :: cs) =
      (c.code, ⟨c.dist, c.lap, n + 1⟩) :: mkFrameDataFrom (n + 1) cs from rfl] at hp
    rcases List.mem_cons.mp hp with h | h
    · exact ⟨c, List.mem_cons_self _ _, by rw [h]⟩
    · obtain ⟨c2, hc2, he⟩ := ih (n + 1) p h
      exact ⟨c2, List.mem_cons_of_mem _ hc2, he⟩

/-- C1 auxiliary: every frame emitted from any loop state has ranks
1..n in snapshot order, and its first entry is a maximal-distance one. -/
theorem buildFramesAux_rank_prop (sm : String → Option DriverStatus)
    (rs : List (String × RTrace)) :
    ∀ (tl : List ℚ) (i : ℕ) (st : AsmState) (frame : Frame),
      frame ∈ buildFramesAux sm rs tl i st →
        frame.drivers.map (fun p => p.2.position) = List.range' 1 frame.drivers.length
        ∧ ∃ hd, frame.drivers.head? = some hd ∧ hd.2.position = 1
            ∧ ∀ p ∈ frame.drivers, p.2.dist ≤ hd.2.dist := by
  intro tl
  induction tl with
  | nil => intro i st frame h; exact absurd h (List.not_mem_nil frame)
  | cons t rest ih =>
    intro i st frame h
    cases hsort : sortSnapshot (mkSnapshot rs i) with
    | nil =>
      rw [buildFramesAux_cons_nil sm rs t rest i st hsort] at h
      exact ih (i + 1) st frame h
    | cons leader others =>
      rw [buildFramesAux_cons_cons sm rs t rest i st leader others hsort] at h
      rcases List.mem_cons.mp h with rfl | h2
      · have hsorted : List.Sorted distGE (leader :: others) := by
          rw [← hsort]
          exact List.sorted_insertionSort distGE (mkSnapshot rs i)
        have hdrv : (mkFrame t leader others (tickState sm i leader others st)).drivers
            = mkFrameDataFrom 0 (leader :: others) := rfl
        constructor
        · rw [hdrv, mkFrameDataFrom_positions, mkFrameDataFrom_length]
        · refine ⟨(leader.code, ⟨leader.dist, leader.lap, 1⟩), ?_, rfl, ?_⟩
          · rw [hdrv]
            rfl
          · intro p hp
            rw [hdrv] at hp
            obtain ⟨c, hc, he⟩ := mkFrameDataFrom_dist_mem (leader :: others) 0 p hp
            rw [he]
            rcases List.mem_cons.mp hc with rfl | hc2
            · exact le_refl _
            · exact List.rel_of_sorted_cons hsorted c hc2
      · exact ih (i + 1) _ frame h2

/-- C1.  In every emitted frame the assigned positions are exactly
1..numDriversInFrame in order (hence unique), and the rank-1 entry has
the maximum race distance in the frame. -/
theorem frame_ranks_exact (sm : String → Option DriverStatus)
    (rs : List (String × RTrace)) (timeline : List ℚ) (frame : Frame)
    (h : frame ∈ buildFrames sm rs timeline) :
    frame.drivers.map (fun p => p.2.position) = List.range' 1 frame.drivers.length
    ∧ ∃ hd, frame.drivers.head? = some hd ∧ hd.2.position = 1
        ∧ ∀ p ∈ frame.drivers, p.2.dist ≤ hd.2.dist :=
  buildFramesAux_rank_prop sm rs timeline 0 initState frame h

theorem frame_ranks_exact_witness :
    frameW ∈ buildFrames (fun _ => none) twoCarTraces [0]
    ∧ (frameW.drivers.map (fun p => p.2.position) = List.range' 1 frameW.drivers.length
        ∧ ∃ hd, frameW.drivers.head? = some hd ∧ hd.2.position = 1
            ∧ ∀ p ∈ frameW.drivers, p.2.dist ≤ hd.2.dist) := by
  have hm : frameW ∈ buildFrames (fun _ => none) twoCarTraces [0] := by
    norm_num +decide [buildFrames, buildFramesAux, mkSnapshot, twoCarTraces, sortSnapshot,
      List.insertionSort, List.orderedInsert, distGE, pyRound, tickState, mkFrame,
      leaderCheck, driverCheck, mkFrameData, mkFrameDataFrom, initState, frameW, updateFF]
  exact ⟨hm, frame_ranks_exact (fun _ => none) twoCarTraces [0] frameW hm⟩

theorem driverCheck_leaderFrame (sm : String → Option DriverStatus) (i : ℕ)
    (st : AsmState) (car : Car) :
    (driverCheck sm i st car).leaderFrame = st.leaderFrame := by
  cases hm : sm car.code with
  | none => simp [driverCheck, hm]
  | some ds =>
    simp only [driverCheck, hm]
    split
    · rfl
    · rfl

theorem foldl_driverCheck_leaderFrame (sm : String → Option DriverStatus) (i : ℕ) :
    ∀ (l : List Car) (st : AsmState),
      (l.foldl (driverCheck sm i) st).leaderFrame = st.leaderFrame := by
  intro l
  induction l with
  | nil => intro st; rfl
  | cons c cs ih =>
    intro st
    rw [List.foldl_cons, ih, driverCheck_leaderFrame]

theorem leaderCheck_of_some (sm : String → Option DriverStatus) (leader : Car)
    (i k : ℕ) (st : AsmState) (h : st.leaderFrame = some k) :
    leaderCheck sm leader i st = st := by
  cases hm : sm leader.code with
  | none => simp [leaderCheck, hm]
  | some ds =>
    simp only [leaderCheck, hm]
    rw [if_neg]
    intro hc
    rw [h] at hc
    exact Option.noConfusion hc.2

theorem tickState_leaderFrame_of_some (sm : String → Option DriverStatus) (i k : ℕ)
    (leader : Car) (others : List Car) (st : AsmState) (h : st.leaderFrame = some k) :
    (tickState sm i leader others st).leaderFrame = some k := by
  unfold tickState
  rw [foldl_driverCheck_leaderFrame, leaderCheck_of_some sm leader i k st h, h]

/-- Once the leader-finish frame is recorded in the loop state, every
frame emitted afterwards carries race_finished = true. -/
theorem buildFramesAux_all_finished (sm : String → Option DriverStatus)
    (rs : List (String × RTrace)) :
    ∀ (tl : List ℚ) (i : ℕ) (st : AsmState) (k : ℕ), st.leaderFrame = some k →
      ∀ f ∈ buildFramesAux sm rs tl i st, f.race_finished = true := by
  intro tl
  induction tl with
  | nil => intro i st k h f hf; exact absurd hf (List.not_mem_nil f)
  | cons t rest ih =>
    intro i st k h f hf
    cases hsort : sortSnapshot (mkSnapshot rs i) with
    | nil =>
      rw [buildFramesAux_cons_nil sm rs t rest i st hsort] at hf
      exact ih (i + 1) st k h f hf
    | cons leader others =>
      rw [buildFramesAux_cons_cons sm rs t rest i st leader others hsort] at hf
      have hsome := tickState_leaderFrame_of_some sm i k leader others st h
      rcases List.mem_cons.mp hf with rfl | hf2
      · show (tickState sm i leader others st).leaderFrame.isSome = true
        rw [hsome]
        rfl
      · exact ih (i + 1) _ k hsome f hf2

theorem buildFramesAux_race_finished_mono (sm : String → Option DriverStatus)
    (rs : List (String × RTrace)) :
    ∀ (tl : List ℚ) (i : ℕ) (st : AsmState) (a b : ℕ) (fa fb : Frame), a < b →
      (buildFramesAux sm rs tl i st)[a]? = some fa →
      (buildFramesAux sm rs tl i st)[b]? = some fb →
      fa.race_finished = true → fb.race_finished = true := by
  intro tl
  induction tl with
  | nil =>
    intro i st a b fa fb hab ha hb hfa
    rw [show buildFramesAux sm rs [] i st = [] from rfl] at ha
    simp at ha
  | cons t rest ih =>
    intro i st a b fa fb hab ha hb hfa
    cases hsort : sortSnapshot (mkSnapshot rs i) with
    | nil =>
      rw [buildFramesAux_cons_nil sm rs t rest i st hsort] at ha hb
      exact ih (i + 1) st a b fa fb hab ha hb hfa
    | cons leader others =>
      rw [buildFramesAux_cons_cons sm rs t rest i st leader others hsort] at ha hb
      cases a with
      | zero =>
        rw [List.getElem?_cons_zero] at ha
        injection ha with ha
        subst ha
        obtain ⟨b2, rfl⟩ : ∃ b2, b = b2 + 1 := ⟨b - 1, by omega⟩
        rw [List.getElem?_cons_succ] at hb
        have hfa2 : (tickState sm i leader others st).leaderFrame.isSome = true := hfa
        obtain ⟨k, hk⟩ := Option.isSome_iff_exists.mp hfa2
        exact buildFramesAux_all_finished sm rs rest (i + 1) _ k hk fb (mem_of_getElem? hb)
      | succ a2 =>
        obtain ⟨b2, rfl⟩ : ∃ b2, b = b2 + 1 := ⟨b - 1, by omega⟩
        rw [List.getElem?_cons_succ] at ha hb
        exact ih (i + 1) _ a2 b2 fa fb (by omega) ha hb hfa

/-- C4.  In the emitted frame sequence, once race_finished is true at
frame i it is true at every later frame j: the recorded leader-finish
frame is never cleared. -/
theorem race_finished_monotone (sm : String → Option DriverStatus)
    (rs : List (String × RTrace)) (timeline : List ℚ) (i j : ℕ) (fi fj : Frame)
    (hij : i < j) (hi : (buildFrames sm rs timeline)[i]? = some fi)
    (hj : (buildFrames sm rs timeline)[j]? = some fj)
    (hfi : fi.race_finished = true) : fj.race_finished = true :=
  buildFramesAux_race_finished_mono sm rs timeline 0 initState i j fi fj hij hi hj hfi

theorem race_finished_monotone_witness :
    (buildFrames smA oneCarTrace [0, 1])[0]? = some frameX0
    ∧ (buildFrames smA oneCarTrace [0, 1])[1]? = some frameX1
    ∧ frameX0.race_finished = true ∧ frameX1.race_finished = true := by
  have heval : buildFrames smA oneCarTrace [0, 1] = [frameX0, frameX1] := by
    norm_num +decide [buildFrames, buildFramesAux, mkSnapshot, oneCarTrace, sortSnapshot,
      List.insertionSort, List.orderedInsert, distGE, pyRound, tickState, mkFrame,
      leaderCheck, driverCheck, mkFrameData, mkFrameDataFrom, initState, smA,
      frameX0, frameX1, updateFF]
  refine ⟨by rw [heval]; rfl, by rw [heval]; rfl, rfl, ?_⟩
  exact race_finished_monotone smA oneCarTrace [0, 1] 0 1 frameX0 frameX1 (by norm_num)
    (by rw [heval]; rfl) (by rw [heval]; rfl) rfl

theorem driverCheck_finishFrames_some (sm : String → Option DriverStatus) (i : ℕ)
    (st : AsmState) (car : Car) (c : String) (v : ℕ)
    (h : st.finishFrames c = some v) : (driverCheck sm i st car).finishFrames c = some v := by
  cases hm : sm car.code with
  | none => simpa [driverCheck, hm] using h
  | some ds =>
    simp only [driverCheck, hm]
    split
    next hc =>
      show updateFF st.finishFrames car.code i c = some v
      unfold updateFF
      by_cases hcc : c = car.code
      · subst hcc
        rw [h] at hc
        exact absurd hc.2.1 (by simp)
      · rw [if_neg hcc]
        exact h
    next => exact h

theorem foldl_driverCheck_finishFrames_some (sm : String → Option DriverStatus) (i : ℕ) :
    ∀ (l : List Car) (st : AsmState) (c : String) (v : ℕ), st.finishFrames c = some v →
      (l.foldl (driverCheck sm i) st).finishFrames c = some v := by
  intro l
  induction l with
  | nil => intro st c v h; exact h
  | cons car cs ih =>
    intro st c v h
    rw [List.foldl_cons]
    exact ih _ c v (driverCheck_finishFrames_some sm i st car c v h)

/-- C10.  When the leader-finish condition fires at tick i for a leader
whose status is not classified finished (a DNF), the tick still records a
per-driver finish frame for that leader - the leader path performs no
is_finished check - while the per-driver path leaves the finish-frame map
unchanged for any driver whose is_finished flag is false. -/
theorem dnf_leader_gets_finish_frame (sm : String → Option DriverStatus)
    (leader : Car) (others : List Car) (i : ℕ) (st : AsmState) (ds : DriverStatus)
    (hsm : sm leader.code = some ds)
    (hnone : st.leaderFrame = none)
    (hlap : ds.laps_completed < leader.lap)
    (hnf : ds.is_finished = false)
    (hdnf : ds.is_dnf = true) :
    (tickState sm i leader others st).finishFrames leader.code = some i
    ∧ ∀ (st2 : AsmState) (car : Car) (ds2 : DriverStatus), sm car.code = some ds2 →
        ds2.is_finished = false →
        (driverCheck sm i st2 car).finishFrames = st2.finishFrames := by
  constructor
  · have hlc : (leaderCheck sm leader i st).finishFrames leader.code = some i := by
      simp only [leaderCheck, hsm]
      rw [if_pos ⟨hlap, hnone⟩]
      show updateFF st.finishFrames leader.code i leader.code = some i
      unfold updateFF
      rw [if_pos rfl]
    unfold tickState
    exact foldl_driverCheck_finishFrames_some sm i _ _ leader.code i hlc
  · intro st2 car ds2 hsm2 hnf2
    simp only [driverCheck, hsm2]
    rw [if_neg (fun hc => by simp [hnf2] at hc)]

theorem dnf_leader_gets_finish_frame_witness :
    (tickState smDNF 0 carA [] initState).finishFrames "A" = some 0 :=
  (dnf_leader_gets_finish_frame smDNF carA [] 0 initState ⟨0, false, true⟩
    (by simp [smDNF, carA]) rfl (by decide) rfl rfl).1

theorem lookup_cons (c : String) (p : String × ℤ) (l : List (String × ℤ)) :
    List.lookup c (p :: l) = if c = p.1 then some p.2 else List.lookup c l := by
  obtain ⟨a, b⟩ := p
  by_cases h : c = a
  · subst h
    simp [List.lookup]
  · have hb : (c == a) = false := by simpa [beq_iff_eq] using h
    simp [List.lookup, hb, h]

theorem lookup_map_replace (k : String) (v : ℤ) : ∀ (m : List (String × ℤ)) (c : String),
    (m.map fun p => if p.1 = k then (k, v) else p).lookup c =
      if c = k then (if m.any (fun p => p.1 = k) then some v else none)
      else m.lookup c := by
  intro m
  induction m with
  | nil =>
    intro c
    by_cases hc : c = k <;> simp [hc]
  | cons p rest ih =>
    intro c
    rw [List.map_cons]
    by_cases hp : p.1 = k
    · rw [if_pos hp, lookup_cons, ih c, lookup_cons, List.any_cons]
      split_ifs <;> simp_all
    · rw [if_neg hp, lookup_cons, ih c, lookup_cons, List.any_cons]
      split_ifs <;> simp_all

theorem lookup_append_single (k : String) (v : ℤ) : ∀ (m : List (String × ℤ)) (c : String),
    (m ++ [(k, v)]).lookup c =
      match m.lookup c with
      | some w => some w
      | none => if c = k then some v else none := by
  intro m
  induction m with
  | nil =>
    intro c
    rw [List.nil_append, lookup_cons]
    rfl
  | cons p rest ih =>
    intro c
    rw [List.cons_append, lookup_cons, ih c, lookup_cons]
    by_cases hcp : c = p.1
    · rw [if_pos hcp, if_pos hcp]
    · rw [if_neg hcp, if_neg hcp]

theorem lookup_eq_none_of_not_any : ∀ (m : List (String × ℤ)) (k : String),
    m.any (fun p => p.1 = k) = false → m.lookup k = none := by
  intro m
  induction m with
  | nil => intro k _; rfl
  | cons p rest ih =>
    intro k h
    simp only [List.any_cons, Bool.or_eq_false_iff] at h
    have hp : p.1 ≠ k := of_decide_eq_false h.1
    rw [lookup_cons, if_neg (fun hc => hp hc.symm)]
    exact ih k h.2

/-- Dict write followed by lookup: the written key reads back the written
value and every other key is untouched. -/
theorem lookup_dictInsert (m : List (String × ℤ)) (k : String) (v : ℤ) (c : String) :
    (dictInsert m k v).lookup c = if c = k then some v else m.lookup c := by
  unfold dictInsert
  by_cases hany : m.any (fun p => decide (p.1 = k)) = true
  · rw [if_pos hany, lookup_map_replace]
    by_cases hc : c = k <;> simp [hc, hany]
  · rw [if_neg hany, lookup_append_single]
    have hany2 : m.any (fun p => decide (p.1 = k)) = false := by
      cases hb : m.any fun p => decide (p.1 = k)
      · rfl
      · exact absurd hb hany
    have hnone := lookup_eq_none_of_not_any m k hany2
    by_cases hc : c = k
    · subst hc
      rw [hnone]
    · cases hml : m.lookup c <;> simp [hc, hml]

theorem buildVerified_absent (rs : List VerifiedResult) :
    ∀ (m : List (String × ℤ)) (c : String), c ∉ rs.map (fun r => r.code) →
      ((rs.foldl (fun m r => dictInsert m r.code r.position) m).lookup c = m.lookup c) := by
  induction rs with
  | nil => intro m c _; rfl
  | cons r rest ih =>
    intro m c h
    rw [List.foldl_cons]
    have hne : c ≠ r.code := fun hc => h (by rw [List.map_cons, hc]; exact List.mem_cons_self _ _)
    rw [ih _ c (fun hc => h (by rw [List.map_cons]; exact List.mem_cons_of_mem _ hc))]
    rw [lookup_dictInsert, if_neg hne]

theorem buildVerified_from_external (rs : List VerifiedResult) :
    ∀ (m : List (String × ℤ)) (c : String) (p : ℤ),
      (rs.foldl (fun m r => dictInsert m r.code r.position) m).lookup c = some p →
        (∃ r ∈ rs, r.code = c ∧ r.position = p) ∨ m.lookup c = some p := by
  induction rs with
  | nil => intro m c p h; exact Or.inr h
  | cons r rest ih =>
    intro m c p h
    rw [List.foldl_cons] at h
    rcases ih _ c p h with ⟨r2, h2, he⟩ | h2
    · exact Or.inl ⟨r2, List.mem_cons_of_mem _ h2, he⟩
    · rw [lookup_dictInsert] at h2
      by_cases hc : c = r.code
      · rw [if_pos hc] at h2
        injection h2 with h2
        exact Or.inl ⟨r, List.mem_cons_self _ _, hc.symm, h2⟩
      · rw [if_neg hc] at h2
        exact Or.inr h2

theorem buildVerified_isSome_mono (rs : List VerifiedResult) :
    ∀ (m : List (String × ℤ)) (c : String), (m.lookup c).isSome = true →
      ((rs.foldl (fun m r => dictInsert m r.code r.position) m).lookup c).isSome = true := by
  induction rs with
  | nil => intro m c h; exact h
  | cons r rest ih =>
    intro m c h
    rw [List.foldl_cons]
    refine ih _ c ?_
    rw [lookup_dictInsert]
    by_cases hc : c = r.code
    · rw [if_pos hc]; rfl
    · rw [if_neg hc]; exact h

theorem buildVerified_present (rs : List VerifiedResult) :
    ∀ (m : List (String × ℤ)) (r : VerifiedResult), r ∈ rs →
      ((rs.foldl (fun m r => dictInsert m r.code r.position) m).lookup r.code).isSome = true := by
  induction rs with
  | nil => intro m r h; exact absurd h (List.not_mem_nil r)
  | cons r0 rest ih =>
    intro m r h
    rw [List.foldl_cons]
    rcases List.mem_cons.mp h with rfl | h2
    · refine buildVerified_isSome_mono rest _ r.code ?_
      rw [lookup_dictInsert, if_pos rfl]
      rfl
    · exact ih _ r h2

/-- C7 counterexample.  With telemetry map A to 1 and external results A
to 1 and B to 2 there is no discrepancy, so the correction step returns
its input unchanged: driver B, present in the external result, is absent
from the returned map, refuting the unconditional full-replacement
reading. -/
theorem verifier_replacement_counterexample :
    fetch_race_results_from_jolpica respAB = some resultsAB
    ∧ resultsAB.map (fun r => (r.code, r.position)) = [("A", 1), ("B", 2)]
    ∧ verify_and_correct_final_positions [("A", 1)] respAB = [("A", 1)]
    ∧ (verify_and_correct_final_positions [("A", 1)] respAB).lookup "B" = none := by
  refine ⟨by decide, by decide, by decide, by decide⟩

/-- C7 amended.  When the fetch succeeds and at least one input code
disagrees with its verified position, the correction step returns the map
built from the external result alone: a full replacement, in which codes
absent from the external result are dropped, every returned binding comes
from an external entry, and every external code is present.  When no
discrepancy exists the input map is returned unchanged instead. -/
theorem verifier_full_replacement (current : List (String × ℤ)) (resp : JolpicaResponse)
    (apiResults : List VerifiedResult)
    (hf : fetch_race_results_from_jolpica resp = some apiResults)
    (hdisc : ∃ p ∈ current, ∃ vp,
      (buildVerifiedPositions apiResults).lookup p.1 = some vp ∧ p.2 ≠ vp) :
    verify_and_correct_final_positions current resp = buildVerifiedPositions apiResults
    ∧ (∀ c, c ∉ apiResults.map (fun r => r.code) →
        (buildVerifiedPositions apiResults).lookup c = none)
    ∧ (∀ (c : String) (p : ℤ), (buildVerifiedPositions apiResults).lookup c = some p →
        ∃ r ∈ apiResults, r.code = c ∧ r.position = p)
    ∧ ∀ r ∈ apiResults, ((buildVerifiedPositions apiResults).lookup r.code).isSome = true := by
  obtain ⟨p0, hp0, vp0, hvp0, hne0⟩ := hdisc
  have hnonempty : apiResults.isEmpty = false := by
    cases apiResults with
    | nil =>
      exfalso
      rw [show buildVerifiedPositions [] = [] from rfl] at hvp0
      exact Option.noConfusion hvp0
    | cons _ _ => rfl
  refine ⟨?_, ?_, ?_, ?_⟩
  · have hfilter : (current.filter fun p =>
        match (buildVerifiedPositions apiResults).lookup p.1 with
        | some vp => decide (p.2 ≠ vp)
        | none => false).isEmpty = false := by
      have hmem : p0 ∈ current.filter fun p =>
          match (buildVerifiedPositions apiResults).lookup p.1 with
          | some vp => decide (p.2 ≠ vp)
          | none => false := by
        refine List.mem_filter.mpr ⟨hp0, ?_⟩
        rw [hvp0]
        exact decide_eq_true hne0
      cases hfl : current.filter _ with
      | nil =>
        rw [hfl] at hmem
        exact absurd hmem (List.not_mem_nil p0)
      | cons _ _ => rfl
    unfold verify_and_correct_final_positions
    rw [hf]
    simp only [hnonempty, hfilter, Bool.false_eq_true, if_false]
  · intro c hc
    exact buildVerified_absent apiResults [] c hc
  · intro c p h
    rcases buildVerified_from_external apiResults [] c p h with h2 | h2
    · exact h2
    · exact absurd h2 (by simp [List.lookup])
  · intro r hr
    exact buildVerified_present apiResults [] r hr

theorem verifier_full_replacement_witness :
    verify_and_correct_final_positions [("A", 2)] respAB = buildVerifiedPositions resultsAB
    ∧ buildVerifiedPositions resultsAB = [("A", 1), ("B", 2)] :=
  ⟨(verifier_full_replacement [("A", 2)] respAB resultsAB (by decide)
      ⟨("A", 2), by simp, 1, by decide, by decide⟩).1, by decide⟩

theorem timeline_grid_bounds_witness :
    (0 : ℚ) < 3/50
    ∧ (mkTimeline 0 (3/50)).head? = some 0
    ∧ (mkTimeline 0 (3/50)).length = ⌈(((3:ℚ)/50) - 0) / DT⌉.toNat :=
  ⟨by norm_num, (timeline_grid_bounds 0 (3/50)).2.2 (by norm_num),
    (timeline_grid_bounds 0 (3/50)).2.1⟩

end F1
